import Mathlib

/-!
Verification of the biors sequence/alphabet/byte-id-generator core.

Rust source files embedded here:
* `src/util/byte_id_generator.rs` — minimal-byte-width big-endian ids,
* `src/alphabet/encoding/index_encoder.rs` — `AsciiIndexEncoder`,
* `src/alphabet/encoding/mod.rs` — `AlphabetEncoder` trait defaults,
* `src/sequence/mod.rs` — `Sequence`, `push`, `push_unchecked`, `string_chunks`.

Modelling conventions:
* Rust `u64` values are `Nat`s; wrap-around is written explicitly as `% 2^64`
  where the source can overflow (release-mode wrapping semantics).
* Rust `String`/`&str` values are `List Char` (Unicode scalar values); byte
  offsets into the UTF-8 representation are recovered from `Char.utf8Size`.
* Fallible Rust code returns `Except`; a `panic!` in construction code is
  modelled as `Option.none`.
* `EncodingError` carries a free-text description next to its kind; only the
  kind is observable in the claims, so errors are modelled by their kind.
-/

namespace biors

/-! ## Byte-id generator (`src/util/byte_id_generator.rs`) -/

/-- The eight big-endian bytes of a `u64`, as in Rust `idx.to_be_bytes()`:
byte `k` is `idx / 2^(8*(7-k)) % 256`, most significant first. -/
def toBeBytes (idx : ℕ) : List ℕ :=
  (List.range 8).map (fun k => idx / 2 ^ (8 * (7 - k)) % 256)

/-- `get_id_unchecked(idx, byte_count)`: the trailing `byte_count` bytes of the
big-endian representation, i.e. `bytes[(8-byte_count)..8].to_vec()`. -/
def get_id_unchecked (idx : ℕ) (byte_count : ℕ) : List ℕ :=
  (toBeBytes idx).drop (8 - byte_count)

/-- Big-endian interpretation of a byte string (how the tests and the spec read
an id back into an index). -/
def fromBeBytes (bs : List ℕ) : ℕ :=
  bs.foldl (fun acc b => acc * 256 + b) 0

/-- `ByteIdGenerator { max, num_bytes }`. -/
structure ByteIdGenerator where
  max : ℕ
  num_bytes : ℕ
deriving DecidableEq, Repr

/-- `ByteIdGenerator::get_id`: error when `idx > self.max`, otherwise the
unchecked trailing-bytes id.  The Rust error is a `&'static str`. -/
def ByteIdGenerator.get_id (g : ByteIdGenerator) (idx : ℕ) :
    Except String (List ℕ) :=
  if g.max < idx then
    .error "Tried to get a byte id larger than max generator size"
  else
    .ok (get_id_unchecked idx g.num_bytes)

/-- `ByteIdGenerator::from_byte_count`: `max = u64::pow(2, num_bytes*8) - 1`
with `u64` wrap-around (for `num_bytes = 8` the power wraps to `0` and the
subtraction wraps back to `2^64 - 1`; the composite is `(2^(8n) - 1) % 2^64`). -/
def fromByteCount (num_bytes : ℕ) : ByteIdGenerator :=
  { max := (2 ^ (8 * num_bytes) - 1) % 2 ^ 64, num_bytes := num_bytes }

/-- Whether the `u64::pow(2, num_bytes*8)` inside `from_byte_count` overflows
the 64-bit index type (it panics under debug overflow checks there). -/
def fromByteCountOverflows (num_bytes : ℕ) : Bool :=
  2 ^ 64 - 1 < 2 ^ (8 * num_bytes)

/-- Fuel-driven floor of `log2` (`log2floor n = Nat.log2 n`, written so that it
reduces in the kernel). -/
def log2floorAux : ℕ → ℕ → ℕ
  | 0, _ => 0
  | fuel + 1, n => if n ≤ 1 then 0 else log2floorAux fuel (n / 2) + 1

/-- Floor of the base-2 logarithm (0 at 0 and 1). -/
def log2floor (n : ℕ) : ℕ := log2floorAux n n

/-- Ceiling of the base-2 logarithm of a positive natural (0 at 0 and 1). -/
def ceilLog2 (n : ℕ) : ℕ := if n ≤ 1 then 0 else log2floor (n - 1) + 1

/-- IEEE-754 round-to-nearest, ties-to-even of a natural number to a binary64
value, as performed by the Rust cast `n as f64` (exact below `2^53`). -/
def roundF64 (n : ℕ) : ℕ :=
  let e := log2floor n
  if e ≤ 52 then n
  else
    let u := 2 ^ (e - 52)
    let q := n / u
    let r := n % u
    if 2 * r < u then q * u
    else if u < 2 * r then (q + 1) * u
    else if q % 2 = 0 then q * u else (q + 1) * u

/-- `ByteIdGenerator::from_max`'s byte count:
`(f64::log2((max_idx + 1) as f64).ceil() / 8.0).ceil() as u32`, with the
`u64::MAX` argument special-cased to 8 by the source.

Float model: the cast `(max_idx + 1) as f64` is `roundF64` (exact IEEE-754
semantics); `f64::log2` is taken as correctly rounded, and its `ceil` agrees
with the exact `ceilLog2` whenever the rounded argument is a power of two or
lies at least half an ulp of its logarithm away from one — every argument this
file evaluates the model at is an exact power of two, where any faithful
`log2` returns the integer exponent exactly.  `x.ceil() / 8.0` and the final
`ceil` are exact in binary64 for these small magnitudes, giving `(k + 7) / 8`. -/
def fromMaxNumBytes (max_idx : ℕ) : ℕ :=
  if max_idx = 2 ^ 64 - 1 then 8
  else (ceilLog2 (roundF64 (max_idx + 1)) + 7) / 8

/-- `ByteIdGenerator::from_max`. -/
def fromMax (max_idx : ℕ) : ByteIdGenerator :=
  { max := max_idx, num_bytes := fromMaxNumBytes max_idx }

/-! ## Iteration (`ByteIdIter`, `IntoIterator for &ByteIdGenerator`) -/

/-- `ByteIdIter { index, generator }`. -/
structure ByteIdIter where
  index : ℕ
  generator : ByteIdGenerator
deriving DecidableEq, Repr

/-- `ByteIdIter::next`: `None` once `index > generator.max()`, otherwise the
unchecked id of the current index; the `u64` counter `self.index += 1` wraps
modulo `2^64` (release semantics; debug would panic on overflow instead). -/
def ByteIdIter.next (it : ByteIdIter) : Option (List ℕ × ByteIdIter) :=
  if it.generator.max < it.index then none
  else
    some (get_id_unchecked it.index it.generator.num_bytes,
          { it with index := (it.index + 1) % 2 ^ 64 })

/-- `(&ByteIdGenerator).into_iter()`: fresh iteration state starting at 0. -/
def intoIter (g : ByteIdGenerator) : ByteIdIter :=
  { index := 0, generator := g }

/-- Drain up to `fuel` items from an iterator (a Rust `for` loop that stops
when `next` returns `None` or after `fuel` steps). -/
def iterCollect : ℕ → ByteIdIter → List (List ℕ)
  | 0, _ => []
  | fuel + 1, it =>
    match it.next with
    | none => []
    | some (v, it') => v :: iterCollect fuel it'

/-! ### Arithmetic facts about the big-endian ids -/

/-- The trailing `n` big-endian base-256 digits of `idx`, most significant
first (recursive form of `get_id_unchecked` convenient for induction). -/
def beTrail : ℕ → ℕ → List ℕ
  | 0, _ => []
  | n + 1, idx => idx / 2 ^ (8 * n) % 256 :: beTrail n idx

theorem foldl_beTrail (n : ℕ) :
    ∀ idx acc, (beTrail n idx).foldl (fun acc b => acc * 256 + b) acc
      = acc * 2 ^ (8 * n) + idx % 2 ^ (8 * n) := by
  induction n with
  | zero => intro idx acc; simp [beTrail, Nat.mod_one]
  | succ n ih =>
    intro idx acc
    have h256 : (256 : ℕ) = 2 ^ 8 := by norm_num
    calc (beTrail (n + 1) idx).foldl (fun acc b => acc * 256 + b) acc
        = (beTrail n idx).foldl (fun acc b => acc * 256 + b)
            (acc * 256 + idx / 2 ^ (8 * n) % 256) := by
          simp [beTrail]
      _ = (acc * 256 + idx / 2 ^ (8 * n) % 256) * 2 ^ (8 * n)
            + idx % 2 ^ (8 * n) := ih idx _
      _ = acc * 2 ^ (8 * (n + 1))
            + (idx % 2 ^ (8 * n) + 2 ^ (8 * n) * (idx / 2 ^ (8 * n) % 256)) := by
          have : 8 * (n + 1) = 8 * n + 8 := by ring
          rw [this, pow_add, ← h256]; ring
      _ = acc * 2 ^ (8 * (n + 1)) + idx % 2 ^ (8 * (n + 1)) := by
          have : 8 * (n + 1) = 8 * n + 8 := by ring
          rw [this, pow_add, ← h256, ← Nat.mod_mul]

theorem get_id_unchecked_eq_beTrail (idx : ℕ) :
    ∀ n, n ≤ 8 → get_id_unchecked idx n = beTrail n idx := by
  intro n hn
  interval_cases n <;> rfl

/-- Big-endian decoding of the trailing `n` bytes recovers `idx % 2^(8n)`. -/
theorem fromBeBytes_get_id_unchecked (idx n : ℕ) (hn : n ≤ 8) :
    fromBeBytes (get_id_unchecked idx n) = idx % 2 ^ (8 * n) := by
  rw [get_id_unchecked_eq_beTrail idx n hn]
  simpa using foldl_beTrail n idx 0

/-- C4: for a generator satisfying the data-model invariant
(`max ≤ 2^(8·num_bytes) − 1`, `num_bytes ≤ 8`), `get_id(idx)` fails exactly
when `idx > max_index`, and otherwise returns the `num_bytes` trailing bytes
of the big-endian representation of `idx`, whose big-endian interpretation
reconstructs `idx`. -/
theorem C4_get_id_roundtrip (g : ByteIdGenerator) (idx : ℕ)
    (hinv : g.max ≤ 2 ^ (8 * g.num_bytes) - 1) (hnb : g.num_bytes ≤ 8) :
    ((∃ msg, g.get_id idx = .error msg) ↔ g.max < idx) ∧
    (idx ≤ g.max →
      g.get_id idx = .ok (get_id_unchecked idx g.num_bytes) ∧
      fromBeBytes (get_id_unchecked idx g.num_bytes) = idx) := by
  constructor
  · constructor
    · rintro ⟨msg, hmsg⟩
      by_contra hlt
      rw [ByteIdGenerator.get_id, if_neg hlt] at hmsg
      exact Except.noConfusion hmsg
    · intro h
      exact ⟨_, by rw [ByteIdGenerator.get_id, if_pos h]⟩
  · intro hle
    have hpos : 0 < 2 ^ (8 * g.num_bytes) := Nat.pos_pow_of_pos _ (by omega)
    refine ⟨by rw [ByteIdGenerator.get_id, if_neg (not_lt.mpr hle)], ?_⟩
    rw [fromBeBytes_get_id_unchecked idx g.num_bytes hnb]
    exact Nat.mod_eq_of_lt (by omega)

/-- A three-byte generator covering indices `0 ..= 2^24 - 1`
(`ByteIdGenerator::from_byte_count(3)` builds exactly this value). -/
def gen3 : ByteIdGenerator := { max := 2 ^ 24 - 1, num_bytes := 3 }

/-- Witness for C4 at the generator of the source's `byte_result` test:
index `0xC1045` is in range and round-trips through `[0x0C, 0x10, 0x45]`. -/
theorem C4_witness :
    (gen3.max ≤ 2 ^ (8 * gen3.num_bytes) - 1 ∧ gen3.num_bytes ≤ 8) ∧
    (((∃ msg, gen3.get_id 790597 = .error msg) ↔ gen3.max < 790597) ∧
      (790597 ≤ gen3.max →
        gen3.get_id 790597 = .ok (get_id_unchecked 790597 gen3.num_bytes) ∧
        fromBeBytes (get_id_unchecked 790597 gen3.num_bytes) = 790597)) :=
  ⟨⟨by decide, by decide⟩, C4_get_id_roundtrip gen3 790597 (by decide) (by decide)⟩

/-- C5 (divergence): `from_max(2^56)` computes `num_bytes = 7`, because the
cast `(2^56 + 1) as f64` rounds down to `2^56` and `ceil(log2(2^56)) = 56`
loses the `+1`; yet `2^56` does not fit in 7 bytes (`2^(8·7) − 1 < 2^56`),
so the smallest byte count satisfying the spec's invariant is 8, not 7.
The generator therefore violates `max ≤ 2^(8·num_bytes) − 1`. -/
theorem C5_from_max_float_bug :
    (fromMax (2 ^ 56)).num_bytes = 7 ∧
    2 ^ (8 * 7) - 1 < (fromMax (2 ^ 56)).max ∧
    (fromMax (2 ^ 56)).max ≤ 2 ^ (8 * 8) - 1 := by
  refine ⟨by decide, by decide, by decide⟩

/-- Counterexample to C6 as stated: at `n = 8` the intermediate
`u64::pow(2, 8*8) = 2^64` exceeds `u64::MAX`, i.e. the computation of
`max_index` overflows the 64-bit index type (a panic under debug overflow
checks; the release-mode wrapped result is what `fromByteCount` models). -/
theorem C6_pow_overflow : fromByteCountOverflows 8 = true := by decide

/-- C6 (amended): for `1 ≤ n ≤ 8`, `from_byte_count(n)` returns `num_bytes = n`
and (with the release-mode wrap-around) `max_index = 2^(8n) − 1`; the
computation overflows the 64-bit type exactly when `n = 8`. -/
theorem C6_from_byte_count (n : ℕ) (h1 : 1 ≤ n) (h8 : n ≤ 8) :
    (fromByteCount n).num_bytes = n ∧
    (fromByteCount n).max = 2 ^ (8 * n) - 1 ∧
    (fromByteCountOverflows n = true ↔ n = 8) := by
  interval_cases n <;> exact ⟨rfl, by decide, by decide⟩

/-- Witness for C6 at `n = 3`. -/
theorem C6_witness :
    ((1 : ℕ) ≤ 3 ∧ (3 : ℕ) ≤ 8) ∧
    ((fromByteCount 3).num_bytes = 3 ∧
      (fromByteCount 3).max = 2 ^ (8 * 3) - 1 ∧
      (fromByteCountOverflows 3 = true ↔ (3 : ℕ) = 8)) :=
  ⟨⟨by decide, by decide⟩, C6_from_byte_count 3 (by decide) (by decide)⟩

theorem iterCollect_eq (g : ByteIdGenerator) (hmax : g.max + 1 < 2 ^ 64) :
    ∀ fuel i, g.max + 1 - i ≤ fuel →
      iterCollect fuel { index := i, generator := g }
        = (List.range' i (g.max + 1 - i)).map
            (fun k => get_id_unchecked k g.num_bytes) := by
  intro fuel
  induction fuel with
  | zero =>
    intro i hf
    have h0 : g.max + 1 - i = 0 := by omega
    simp [iterCollect, h0]
  | succ fuel ih =>
    intro i hf
    by_cases hc : g.max < i
    · have h0 : g.max + 1 - i = 0 := by omega
      simp [iterCollect, ByteIdIter.next, hc, h0]
    · push_neg at hc
      have hwrap : (i + 1) % 2 ^ 64 = i + 1 := Nat.mod_eq_of_lt (by omega)
      have hcnt : g.max + 1 - i = (g.max + 1 - (i + 1)) + 1 := by omega
      rw [hcnt, List.range'_succ, List.map_cons]
      simp only [iterCollect, ByteIdIter.next, if_neg (not_lt.mpr hc), hwrap]
      rw [ih (i + 1) (by omega)]

/-- C7 (amended): for every generator with `max_index < u64::MAX`, iterating
yields exactly `max_index + 1` items, the `i`-th (0-based) being the byte
identifier of index `i` — hence in big-endian counting order, the low byte
wrapping before the next byte increments — and every traversal obtains fresh
iteration state starting at index 0. -/
theorem C7_iteration (g : ByteIdGenerator) (hmax : g.max < 2 ^ 64 - 1)
    (fuel : ℕ) (hfuel : g.max + 1 ≤ fuel) :
    intoIter g = { index := 0, generator := g } ∧
    iterCollect fuel (intoIter g)
      = (List.range (g.max + 1)).map (fun k => get_id_unchecked k g.num_bytes) := by
  refine ⟨rfl, ?_⟩
  have h := iterCollect_eq g (by omega) fuel 0 (by omega)
  simpa [intoIter, List.range_eq_range'] using h

/-- Witness for C7: iterating the two-byte generator with `max_index = 300`
yields the 301 ids `[0,0], [0,1], …, [1,44]` (low byte wraps at 256). -/
theorem C7_witness :
    ((300 : ℕ) < 2 ^ 64 - 1 ∧ (300 : ℕ) + 1 ≤ 301) ∧
    (intoIter ⟨300, 2⟩ = { index := 0, generator := ⟨300, 2⟩ } ∧
      iterCollect 301 (intoIter ⟨300, 2⟩)
        = (List.range (300 + 1)).map (fun k => get_id_unchecked k 2)) :=
  ⟨⟨by decide, by decide⟩, C7_iteration ⟨300, 2⟩ (by decide) 301 (by decide)⟩

/-- The generator covering every `u64` index: `from_max(u64::MAX)` (and, in a
release build, `from_byte_count(8)`) produce exactly this value. -/
def genMaxU64 : ByteIdGenerator := { max := 2 ^ 64 - 1, num_bytes := 8 }

theorem iterCollect_genMaxU64 :
    ∀ fuel i, i < 2 ^ 64 →
      (iterCollect fuel { index := i, generator := genMaxU64 }).length = fuel := by
  intro fuel
  induction fuel with
  | zero => intro i _; rfl
  | succ fuel ih =>
    intro i hi
    have hc : ¬ (genMaxU64.max < i) := by
      show ¬ (2 ^ 64 - 1 < i); omega
    simp only [iterCollect, ByteIdIter.next, if_neg hc, List.length_cons]
    rw [ih ((i + 1) % 2 ^ 64) (Nat.mod_lt _ (by positivity))]

/-- Counterexample to C7 as stated: for the generator with
`max_index = u64::MAX` (reachable as `from_max(u64::MAX)`), the `u64` index
counter wraps to 0 after the last item, so iteration never stops: draining
`max_index + 2` steps still yields `max_index + 2` items, not the claimed
`max_index + 1`. -/
theorem C7_cex :
    fromMax (2 ^ 64 - 1) = genMaxU64 ∧
    (iterCollect (genMaxU64.max + 2) (intoIter genMaxU64)).length
      = genMaxU64.max + 2 ∧
    genMaxU64.max + 2 ≠ genMaxU64.max + 1 := by
  refine ⟨by decide, ?_, by decide⟩
  exact iterCollect_genMaxU64 (genMaxU64.max + 2) 0 (by decide)

/-! ## Alphabet capability (`src/alphabet/mod.rs`, abstract contract of §6)

The `Alphabet` trait is consumed abstractly: an ordered symbol list, a symbol
width in scalar values, and a declared maximum symbol count.  Its default
`contains` implementation is membership in `symbols()`. -/

/-- The `Alphabet` capability: `symbols()`, `symbol_size()`,
`max_alphabet_size()`. -/
structure Alphabet where
  symbols : List (List Char)
  symbol_size : ℕ
  max_alphabet_size : ℕ
deriving DecidableEq, Repr

/-- Trait default `Alphabet::contains`: `self.symbols().contains(&s)`. -/
def Alphabet.contains (a : Alphabet) (s : List Char) : Prop :=
  s ∈ a.symbols

instance (a : Alphabet) (s : List Char) : Decidable (a.contains s) := by
  unfold Alphabet.contains; infer_instance

/-! ## `AsciiIndexEncoder` (`src/alphabet/encoding/index_encoder.rs`) -/

/-- Encoding error kinds (`encoding::ErrorKind`); the free-text description of
`EncodingError` is not modelled. -/
inductive ErrorKind where
  | InvalidSymbol (symbol : List Char)
  | InvalidBytes (bytes : List ℕ)
  | InvalidLength
  | NoMapping
  | Other
deriving DecidableEq, Repr

/-- Left lookup in the bijective map (`BiHashMap::get_by_left`); the mapping is
an association list whose keys are unique by construction. -/
def lookupLeft (k : List Char) : List (List Char × ℕ) → Option ℕ
  | [] => none
  | (s, c) :: rest => if s = k then some c else lookupLeft k rest

/-- Right lookup in the bijective map (`BiHashMap::get_by_right`). -/
def lookupRight (v : ℕ) : List (List Char × ℕ) → Option (List Char)
  | [] => none
  | (s, c) :: rest => if c = v then some s else lookupRight v rest

/-- The insertion loop of `construct_mapping`: insert `(symbol, index as u8)`
for each symbol in order; a `bimap` insertion that would overwrite either side
(`!= Overwritten::Neither`) is the duplicate-symbol panic, modelled as `none`. -/
def insertAll : List (List Char) → ℕ → List (List Char × ℕ) →
    Option (List (List Char × ℕ))
  | [], _, acc => some acc
  | s :: rest, i, acc =>
    if lookupLeft s acc = none ∧ lookupRight (i % 256) acc = none then
      insertAll rest (i + 1) (acc ++ [(s, i % 256)])
    else
      none

/-- `AsciiIndexEncoder::construct_mapping`: panics (modelled `none`) when the
declared `max_alphabet_size` or the symbol count exceeds 256, or when a
duplicate symbol is inserted; otherwise the finished bijection. -/
def construct_mapping (symbols : List (List Char)) (max_size : ℕ) :
    Option (List (List Char × ℕ)) :=
  if 256 < max_size ∨ 256 < symbols.length then none
  else insertAll symbols 0 []

/-- `AsciiIndexEncoder { alphabet, mapping }`. -/
structure AsciiIndexEncoder where
  alphabet : Alphabet
  mapping : List (List Char × ℕ)
deriving DecidableEq, Repr

/-- `AsciiIndexEncoder::new` / `recalculate_mapping`: both build the mapping
with `construct_mapping` from the alphabet's current symbol list (`none` is
the construction panic). -/
def newEncoder (a : Alphabet) : Option AsciiIndexEncoder :=
  (construct_mapping a.symbols a.max_alphabet_size).map
    (fun m => { alphabet := a, mapping := m })

/-- `AsciiIndexEncoder::encode`: the byte code for `symbol` when mapped;
otherwise `InvalidSymbol` when the symbol is not even in the alphabet, and
`NoMapping` when it is in the alphabet but the mapping predates it. -/
def encode (e : AsciiIndexEncoder) (symbol : List Char) :
    Except ErrorKind (List ℕ) :=
  match lookupLeft symbol e.mapping with
  | some encoded => .ok [encoded]
  | none =>
    if ¬ e.alphabet.contains symbol then
      .error (.InvalidSymbol symbol)
    else
      .error .NoMapping

/-- `AsciiIndexEncoder::decode_all`: decode byte by byte via `get_by_right`,
short-circuiting with `NoMapping` on the first unmapped byte. -/
def decode_all (e : AsciiIndexEncoder) : List ℕ →
    Except ErrorKind (List (List Char))
  | [] => .ok []
  | b :: rest =>
    match lookupRight b e.mapping with
    | none => .error .NoMapping
    | some symbol =>
      match decode_all e rest with
      | .error err => .error err
      | .ok more => .ok (symbol :: more)

/-- Trait default `AlphabetEncoder::decode`: `decode_all`, then demand exactly
one decoded symbol, else `InvalidBytes`. -/
def decode (e : AsciiIndexEncoder) (bytes : List ℕ) :
    Except ErrorKind (List Char) :=
  match decode_all e bytes with
  | .error err => .error err
  | .ok decoded =>
    match decoded with
    | [d] => .ok d
    | _ => .error (.InvalidBytes bytes)

/-- Trait default `AlphabetEncoder::encode_all`: encode each symbol in order
into one flattened buffer, short-circuiting on the first failure. -/
def encode_all (e : AsciiIndexEncoder) : List (List Char) →
    Except ErrorKind (List ℕ)
  | [] => .ok []
  | s :: rest =>
    match encode e s with
    | .error err => .error err
    | .ok bytes =>
      match encode_all e rest with
      | .error err => .error err
      | .ok more => .ok (bytes ++ more)

/-! ### The shape of a successfully constructed mapping -/

/-- The mapping `construct_mapping` builds on success: symbol `j` of the list
paired with code `(i + j) % 256`. -/
def idxList (i : ℕ) : List (List Char) → List (List Char × ℕ)
  | [] => []
  | s :: rest => (s, i % 256) :: idxList (i + 1) rest

theorem lookupLeft_append_none {k : List Char} {a b : List (List Char × ℕ)} :
    lookupLeft k (a ++ b) = none ↔ lookupLeft k a = none ∧ lookupLeft k b = none := by
  induction a with
  | nil => simp [lookupLeft]
  | cons p rest ih =>
    obtain ⟨s, c⟩ := p
    by_cases h : s = k <;> simp [lookupLeft, h, ih]

theorem lookupRight_append_none {v : ℕ} {a b : List (List Char × ℕ)} :
    lookupRight v (a ++ b) = none ↔ lookupRight v a = none ∧ lookupRight v b = none := by
  induction a with
  | nil => simp [lookupRight]
  | cons p rest ih =>
    obtain ⟨s, c⟩ := p
    by_cases h : c = v <;> simp [lookupRight, h, ih]

/-- On success the insertion loop appends exactly the indexed pairs. -/
theorem insertAll_eq (symbols : List (List Char)) :
    ∀ i acc m, insertAll symbols i acc = some m → m = acc ++ idxList i symbols := by
  induction symbols with
  | nil => intro i acc m h; cases h; simp [idxList]
  | cons s rest ih =>
    intro i acc m h
    rw [insertAll] at h
    split at h
    · have := ih (i + 1) (acc ++ [(s, i % 256)]) m h
      simp [idxList, this]
    · exact Option.noConfusion h

/-- Success of the insertion loop forces the symbols to be duplicate-free and
disjoint from the keys already inserted. -/
theorem insertAll_nodup (symbols : List (List Char)) :
    ∀ i acc m, insertAll symbols i acc = some m →
      symbols.Nodup ∧ ∀ t ∈ symbols, lookupLeft t acc = none := by
  induction symbols with
  | nil => intro i acc m _; simp
  | cons s rest ih =>
    intro i acc m h
    rw [insertAll] at h
    split at h
    · rename_i hcond
      obtain ⟨hrest, hacc⟩ := ih (i + 1) (acc ++ [(s, i % 256)]) m h
      have hmem : ∀ t ∈ rest, lookupLeft t acc = none ∧ t ≠ s := by
        intro t ht
        have := hacc t ht
        rw [lookupLeft_append_none] at this
        refine ⟨this.1, ?_⟩
        intro hts
        have := this.2
        rw [hts] at this
        simp [lookupLeft] at this
      refine ⟨List.nodup_cons.mpr ⟨?_, hrest⟩, ?_⟩
      · intro hs
        exact (hmem s hs).2 rfl
      · intro t ht
        rcases List.mem_cons.mp ht with rfl | ht'
        · exact hcond.1
        · exact (hmem t ht').1
    · exact Option.noConfusion h

/-- The insertion loop succeeds on a duplicate-free list of symbols that
avoids the keys inserted so far, with all previous codes below `i`. -/
theorem insertAll_succeeds (symbols : List (List Char)) :
    ∀ i acc, symbols.Nodup →
      (∀ t ∈ symbols, lookupLeft t acc = none) →
      (∀ v, lookupRight v acc ≠ none → v < i) →
      i + symbols.length ≤ 256 →
      insertAll symbols i acc = some (acc ++ idxList i symbols) := by
  induction symbols with
  | nil => intro i acc _ _ _ _; simp [insertAll, idxList]
  | cons s rest ih =>
    intro i acc hnd hleft hright hlen
    have hi : i % 256 = i := Nat.mod_eq_of_lt (by simp at hlen; omega)
    have hcondL : lookupLeft s acc = none := hleft s (by simp)
    have hcondR : lookupRight (i % 256) acc = none := by
      by_contra hne
      have := hright (i % 256) hne
      omega
    rw [insertAll, if_pos ⟨hcondL, hcondR⟩]
    have hrest : insertAll rest (i + 1) (acc ++ [(s, i % 256)])
        = some ((acc ++ [(s, i % 256)]) ++ idxList (i + 1) rest) := by
      apply ih
      · exact (List.nodup_cons.mp hnd).2
      · intro t ht
        rw [lookupLeft_append_none]
        refine ⟨hleft t (by simp [ht]), ?_⟩
        have hts : t ≠ s := by
          rintro rfl
          exact (List.nodup_cons.mp hnd).1 ht
        simp [lookupLeft, Ne.symm hts]
      · intro v hv
        by_cases hvacc : lookupRight v acc = none
        · have hone : lookupRight v [(s, i % 256)] ≠ none :=
            fun h0 => hv (lookupRight_append_none.mpr ⟨hvacc, h0⟩)
          have : i % 256 = v := by
            by_contra hne
            simp [lookupRight, hne] at hone
          omega
        · have := hright v hvacc
          omega
      · simp at hlen ⊢; omega
    rw [hrest, hi]
    simp [idxList, hi]

theorem lookupLeft_idxList (symbols : List (List Char)) :
    ∀ i j (h : j < symbols.length), symbols.Nodup → i + symbols.length ≤ 256 →
      lookupLeft (symbols.get ⟨j, h⟩) (idxList i symbols) = some (i + j) := by
  induction symbols with
  | nil => intro i j h; simp at h
  | cons s rest ih =>
    intro i j h hnd hlen
    cases j with
    | zero =>
      have hi : i % 256 = i := Nat.mod_eq_of_lt (by simp at hlen; omega)
      simp [idxList, lookupLeft, hi]
    | succ j =>
      have hne : rest.get ⟨j, by simpa using h⟩ ≠ s := by
        intro heq
        exact (List.nodup_cons.mp hnd).1
          (heq ▸ List.get_mem rest j (by simpa using h))
      have := ih (i + 1) j (by simpa using h) (List.nodup_cons.mp hnd).2
        (by simp at hlen ⊢; omega)
      simp only [idxList, lookupLeft, List.get_cons_succ]
      rw [if_neg (Ne.symm hne), this]
      congr 1
      omega

theorem lookupRight_idxList (symbols : List (List Char)) :
    ∀ i j (h : j < symbols.length), i + symbols.length ≤ 256 →
      lookupRight (i + j) (idxList i symbols) = some (symbols.get ⟨j, h⟩) := by
  induction symbols with
  | nil => intro i j h; simp at h
  | cons s rest ih =>
    intro i j h hlen
    have hi : i % 256 = i := Nat.mod_eq_of_lt (by simp at hlen; omega)
    cases j with
    | zero => simp [idxList, lookupRight, hi]
    | succ j =>
      have := ih (i + 1) j (by simpa using h) (by simp at hlen ⊢; omega)
      simp only [idxList, lookupRight, List.get_cons_succ, hi]
      rw [if_neg (by omega)]
      rw [show i + (j + 1) = (i + 1) + j by omega, this]

/-- Characterisation of a successful construction. -/
theorem construct_mapping_some (symbols : List (List Char)) (max_size : ℕ) :
    ∀ m, construct_mapping symbols max_size = some m →
      m = idxList 0 symbols ∧ symbols.Nodup ∧
      max_size ≤ 256 ∧ symbols.length ≤ 256 := by
  intro m h
  rw [construct_mapping] at h
  split at h
  · exact Option.noConfusion h
  · rename_i hsz
    push_neg at hsz
    have h1 := insertAll_eq symbols 0 [] m h
    have h2 := insertAll_nodup symbols 0 [] m h
    exact ⟨by simpa using h1, h2.1, hsz.1, hsz.2⟩

/-- C8: `construct_mapping` fails — with the construction panic, not
silently — exactly when two distinct positions hold an equal symbol string or
the symbol count or declared `max_alphabet_size` exceeds 256; on success the
symbol at position `i` is assigned the one-byte identifier for index `i`. -/
theorem C8_construct_mapping (symbols : List (List Char)) (max_size : ℕ) :
    (construct_mapping symbols max_size = none ↔
      (¬ symbols.Nodup ∨ 256 < symbols.length ∨ 256 < max_size)) ∧
    (∀ m, construct_mapping symbols max_size = some m →
      ∀ i (h : i < symbols.length),
        lookupLeft (symbols.get ⟨i, h⟩) m = some i) := by
  constructor
  · constructor
    · intro hnone
      by_contra hcon
      push_neg at hcon
      obtain ⟨hnd, hlen, hsz⟩ := hcon
      have := insertAll_succeeds symbols 0 [] hnd
        (by intro t _; rfl) (by intro v hv; simp [lookupRight] at hv) (by omega)
      rw [construct_mapping, if_neg (by push_neg; omega)] at hnone
      rw [this] at hnone
      exact Option.noConfusion hnone
    · intro hbad
      rcases hbad with hdup | hlen | hsz
      · cases hcm : construct_mapping symbols max_size with
        | none => rfl
        | some m =>
          exact absurd (construct_mapping_some symbols max_size m hcm).2.1 hdup
      · rw [construct_mapping, if_pos (Or.inr hlen)]
      · rw [construct_mapping, if_pos (Or.inl hsz)]
  · intro m hm i h
    obtain ⟨rfl, hnd, _, hlen⟩ := construct_mapping_some symbols max_size m hm
    simpa using lookupLeft_idxList symbols 0 i h hnd (by omega)

/-- Witness for C8: the duplicate-free two-character alphabet
`["AA", "BB", "CC"]` of the encoder tests constructs successfully and maps
symbol `i` to code `i`; e.g. symbol 2 (`"CC"`) gets code 2. -/
theorem C8_witness :
    (construct_mapping [['A','A'], ['B','B'], ['C','C']] 256 = none ↔
      (¬ ([['A','A'], ['B','B'], ['C','C']] : List (List Char)).Nodup ∨
        256 < ([['A','A'], ['B','B'], ['C','C']] : List (List Char)).length ∨
        (256 : ℕ) < 256)) ∧
    (∀ m, construct_mapping [['A','A'], ['B','B'], ['C','C']] 256 = some m →
      ∀ i (h : i < ([['A','A'], ['B','B'], ['C','C']] : List (List Char)).length),
        lookupLeft (([['A','A'], ['B','B'], ['C','C']] :
          List (List Char)).get ⟨i, h⟩) m = some i) :=
  C8_construct_mapping [['A','A'], ['B','B'], ['C','C']] 256

/-- C2: in an alphabet whose symbol list has no duplicates, every listed
symbol round-trips through the encoder: `decode(encode(s)) = s`.  The
hypothesis `newEncoder a = some e` covers both states the claim mentions,
since `AsciiIndexEncoder::new` and `recalculate_mapping` build the mapping by
the same `construct_mapping` call against the alphabet's current symbol
list. -/
theorem C2_encode_decode (a : Alphabet) (e : AsciiIndexEncoder) (s : List Char)
    (hnd : a.symbols.Nodup) (he : newEncoder a = some e) (hs : s ∈ a.symbols) :
    ∃ code, encode e s = .ok code ∧ decode e code = .ok s := by
  rw [newEncoder] at he
  cases hcm : construct_mapping a.symbols a.max_alphabet_size with
  | none => rw [hcm] at he; exact Option.noConfusion he
  | some m =>
    rw [hcm] at he
    simp only [Option.map_some'] at he
    obtain rfl := Option.some.inj he
    obtain ⟨hm, _, _, hlen⟩ := construct_mapping_some a.symbols _ m hcm
    obtain ⟨⟨j, hj⟩, rfl⟩ := List.mem_iff_get.mp hs
    refine ⟨[j], ?_, ?_⟩
    · have := lookupLeft_idxList a.symbols 0 j hj hnd (by omega)
      simp only [encode, hm]
      rw [show (0 : ℕ) + j = j by omega] at this
      rw [this]
    · have := lookupRight_idxList a.symbols 0 j hj (by omega)
      rw [show (0 : ℕ) + j = j by omega] at this
      simp only [decode, decode_all, hm]
      rw [this]

/-- The three-symbol test alphabet `SYMBOLS_A = ["AA", "BB", "CC"]` with the
declared defaults (`symbol_size` 2, `max_alphabet_size` 256). -/
def alphaABC : Alphabet :=
  { symbols := [['A','A'], ['B','B'], ['C','C']],
    symbol_size := 2, max_alphabet_size := 256 }

/-- The encoder `AsciiIndexEncoder::new(&alphaABC)` builds. -/
def encABC : AsciiIndexEncoder :=
  { alphabet := alphaABC,
    mapping := [(['A','A'], 0), (['B','B'], 1), (['C','C'], 2)] }

/-- Witness for C2: `"BB"` round-trips through `encABC`. -/
theorem C2_witness :
    (alphaABC.symbols.Nodup ∧ newEncoder alphaABC = some encABC ∧
      ['B','B'] ∈ alphaABC.symbols) ∧
    (∃ code, encode encABC ['B','B'] = .ok code ∧
      decode encABC code = .ok ['B','B']) :=
  ⟨⟨by decide, by decide, by decide⟩,
    C2_encode_decode alphaABC encABC ['B','B'] (by decide) (by decide) (by decide)⟩

/-- C9: `encode` on a symbol with no entry in the current mapping never
panics: it returns `InvalidSymbol` when the symbol is absent from the
alphabet, and `NoMapping` when the symbol is in the alphabet's current symbol
list but the mapping predates it (stale mapping). -/
theorem C9_encode_error_kinds (e : AsciiIndexEncoder) (s : List Char)
    (h : lookupLeft s e.mapping = none) :
    (s ∉ e.alphabet.symbols → encode e s = .error (.InvalidSymbol s)) ∧
    (s ∈ e.alphabet.symbols → encode e s = .error .NoMapping) := by
  constructor <;> intro hs <;> simp [encode, h, Alphabet.contains, hs]

/-- The stale-mapping scenario of the `recalculate_mappings` test: the
alphabet now reports `SYMBOLS_B = ["EE", "BB", "CC", "DD"]`, while the
encoder still holds the mapping built from `SYMBOLS_A = ["AA", "BB", "CC"]`. -/
def encStale : AsciiIndexEncoder :=
  { alphabet :=
      { symbols := [['E','E'], ['B','B'], ['C','C'], ['D','D']],
        symbol_size := 2, max_alphabet_size := 256 },
    mapping := [(['A','A'], 0), (['B','B'], 1), (['C','C'], 2)] }

/-- Witness for C9: under the stale mapping, `"DD"` (in the alphabet, not in
the mapping) yields `NoMapping`, and `"ZZ"` (absent) yields `InvalidSymbol`. -/
theorem C9_witness :
    (lookupLeft ['D','D'] encStale.mapping = none ∧
      lookupLeft ['Z','Z'] encStale.mapping = none) ∧
    (['D','D'] ∈ encStale.alphabet.symbols →
      encode encStale ['D','D'] = .error .NoMapping) ∧
    (['Z','Z'] ∉ encStale.alphabet.symbols →
      encode encStale ['Z','Z'] = .error (.InvalidSymbol ['Z','Z'])) :=
  ⟨⟨by decide, by decide⟩,
    (C9_encode_error_kinds encStale ['D','D'] (by decide)).2,
    (C9_encode_error_kinds encStale ['Z','Z'] (by decide)).1⟩

/-! ## Sequence and UTF-8 chunking (`src/sequence/mod.rs`)

A Rust `&str` is a `List Char`; its UTF-8 byte layout is recovered from
`Char.utf8Size`.  `string_chunks` is modelled exactly along the source
pipeline `char_indices → step_by → flat_map(slice)`, with byte offsets; the
helpers `byteDrop`/`byteTake` are the byte slices `src[from..]` and a
byte-length prefix (only ever applied at character-boundary offsets, where
they agree with Rust slicing; Rust would panic off a boundary). -/

/-- Total UTF-8 byte length of a string (`str::len`). -/
def utf8Len (l : List Char) : ℕ := (l.map Char.utf8Size).sum

/-- `char_indices` starting from byte offset `off`: each scalar value paired
with its UTF-8 byte offset. -/
def charIndicesFrom (off : ℕ) : List Char → List (ℕ × Char)
  | [] => []
  | c :: cs => (off, c) :: charIndicesFrom (off + c.utf8Size) cs

/-- `str::char_indices`. -/
def charIndices (l : List Char) : List (ℕ × Char) := charIndicesFrom 0 l

/-- `Iterator::step_by(n)` state machine: `skip = 0` yields the element and
re-arms the countdown at `n - 1`; otherwise the element is skipped. -/
def stepByAux (n : ℕ) : ℕ → List α → List α
  | _, [] => []
  | 0, x :: xs => x :: stepByAux n (n - 1) xs
  | k + 1, _ :: xs => stepByAux n k xs

/-- `Iterator::step_by(n)`: every `n`-th element, starting with the first. -/
def stepBy (n : ℕ) (l : List α) : List α := stepByAux n 0 l

/-- The byte suffix `src[from..]` for a boundary offset. -/
def byteDrop : List Char → ℕ → List Char
  | l, 0 => l
  | [], _ => []
  | c :: cs, k + 1 => byteDrop cs (k + 1 - c.utf8Size)

/-- The prefix of a string spanning the first `k` bytes, for a boundary `k`. -/
def byteTake : List Char → ℕ → List Char
  | _, 0 => []
  | [], _ => []
  | c :: cs, k + 1 => c :: byteTake cs (k + 1 - c.utf8Size)

/-- The body of `string_chunks`' `flat_map`: from byte offset `from`, find the
`chunk_size`-th scalar value of `src[from..]` (`skip(chunk_size - 1).next()`)
and slice `src[from .. from + to + c.len_utf8()]`; `None` (dropped) when
fewer than `chunk_size` characters remain. -/
def chunkAt (src : List Char) (chunk_size : ℕ) (p : ℕ × Char) :
    Option (List Char) :=
  match (charIndices (byteDrop src p.1)).drop (chunk_size - 1) with
  | [] => none
  | (off, c) :: _ => some (byteTake (byteDrop src p.1) (off + c.utf8Size))

/-- `string_chunks(src, chunk_size)`:
`src.char_indices().step_by(chunk_size).flat_map(…)`. -/
def string_chunks (src : List Char) (chunk_size : ℕ) : List (List Char) :=
  (stepBy chunk_size (charIndices src)).filterMap (chunkAt src chunk_size)

/-- Reference chunking over scalar values: the `⌊len / n⌋` complete groups of
`n` consecutive characters, irrespective of byte widths. -/
def chunksList (n : ℕ) (l : List Char) : List (List Char) :=
  (List.range (l.length / n)).map (fun i => (l.drop (i * n)).take n)

/-- `Sequence { encoder, circular, string }` (default `AsciiIndexEncoder`). -/
structure Sequence where
  encoder : AsciiIndexEncoder
  circular : Bool
  string : List ℕ
deriving DecidableEq, Repr

/-- `Sequence::new(alphabet)`: empty buffer, default encoder from the
alphabet (`none` is the construction panic of `AsciiIndexEncoder::new`). -/
def newSeq (a : Alphabet) : Option Sequence :=
  (newEncoder a).map (fun e => { encoder := e, circular := false, string := [] })

/-- `Sequence::push`: reject with `InvalidLength` when the scalar-value count
is not a multiple of `symbol_size`; otherwise encode all chunks and append
(`?` returns the error before the buffer is touched).  Mirrors
`&mut self -> Result<()>` as result × post-state. -/
def Sequence.push (sq : Sequence) (text : List Char) :
    Except ErrorKind Unit × Sequence :=
  let symbol_size := sq.encoder.alphabet.symbol_size
  if text.length % symbol_size ≠ 0 then
    (.error .InvalidLength, sq)
  else
    match encode_all sq.encoder (string_chunks text symbol_size) with
    | .error e => (.error e, sq)
    | .ok v => (.ok (), { sq with string := sq.string ++ v })

/-- `Sequence::push_unchecked`: identical, minus the length check. -/
def Sequence.push_unchecked (sq : Sequence) (text : List Char) :
    Except ErrorKind Unit × Sequence :=
  let symbol_size := sq.encoder.alphabet.symbol_size
  match encode_all sq.encoder (string_chunks text symbol_size) with
  | .error e => (.error e, sq)
  | .ok v => (.ok (), { sq with string := sq.string ++ v })

/-! ### `string_chunks` computes the scalar-value chunking -/

theorem utf8Len_append (a b : List Char) :
    utf8Len (a ++ b) = utf8Len a + utf8Len b := by
  simp [utf8Len]

theorem charIndicesFrom_length (l : List Char) :
    ∀ a, (charIndicesFrom a l).length = l.length := by
  induction l with
  | nil => intro a; rfl
  | cons c cs ih => intro a; simp [charIndicesFrom, ih]

theorem stepByAux_eq_drop (n : ℕ) (l : List α) :
    ∀ k, stepByAux n k l = stepBy n (l.drop k) := by
  induction l with
  | nil => intro k; cases k <;> rfl
  | cons x xs ih =>
    intro k
    cases k with
    | zero => rfl
    | succ k => rw [List.drop_succ_cons, ← ih k]; rfl

theorem stepBy_cons (n : ℕ) (x : α) (xs : List α) :
    stepBy n (x :: xs) = x :: stepBy n (xs.drop (n - 1)) := by
  rw [stepBy, stepByAux, stepByAux_eq_drop]

theorem stepByAux_map (f : α → β) (n : ℕ) (l : List α) :
    ∀ k, stepByAux n k (l.map f) = (stepByAux n k l).map f := by
  induction l with
  | nil => intro k; cases k <;> rfl
  | cons x xs ih =>
    intro k
    cases k with
    | zero => simp only [List.map_cons, stepByAux, ih (n - 1)]
    | succ k => simp only [List.map_cons, stepByAux, ih k]

theorem stepBy_map (f : α → β) (n : ℕ) (l : List α) :
    stepBy n (l.map f) = (stepBy n l).map f :=
  stepByAux_map f n l 0

theorem charIndicesFrom_shift (l : List Char) :
    ∀ a b, charIndicesFrom (a + b) l
      = (charIndicesFrom a l).map (fun p => (p.1 + b, p.2)) := by
  induction l with
  | nil => intro a b; rfl
  | cons c cs ih =>
    intro a b
    simp only [charIndicesFrom, List.map_cons]
    congr 1
    rw [show a + b + c.utf8Size = (a + c.utf8Size) + b by omega]
    exact ih (a + c.utf8Size) b

theorem charIndicesFrom_eq_map (l : List Char) (b : ℕ) :
    charIndicesFrom b l = (charIndices l).map (fun p => (p.1 + b, p.2)) := by
  have := charIndicesFrom_shift l 0 b
  simpa [charIndices] using this

theorem charIndicesFrom_drop :
    ∀ (k : ℕ) (l : List Char) (a : ℕ),
      (charIndicesFrom a l).drop k
        = charIndicesFrom (a + utf8Len (l.take k)) (l.drop k) := by
  intro k
  induction k with
  | zero => intro l a; simp [utf8Len]
  | succ k ih =>
    intro l a
    cases l with
    | nil => simp [charIndicesFrom]
    | cons c cs =>
      simp only [charIndicesFrom, List.drop_succ_cons, List.take_succ_cons]
      rw [ih cs (a + c.utf8Size)]
      congr 1
      simp [utf8Len]
      omega

theorem byteDrop_cons_pos (c : Char) (cs : List Char) (k : ℕ) (h : 0 < k) :
    byteDrop (c :: cs) k = byteDrop cs (k - c.utf8Size) := by
  cases k with
  | zero => omega
  | succ k => rfl

theorem byteTake_cons_pos (c : Char) (cs : List Char) (k : ℕ) (h : 0 < k) :
    byteTake (c :: cs) k = c :: byteTake cs (k - c.utf8Size) := by
  cases k with
  | zero => omega
  | succ k => rfl

theorem byteDrop_append (pre : List Char) :
    ∀ (off : ℕ) (rest : List Char),
      byteDrop (pre ++ rest) (utf8Len pre + off) = byteDrop rest off := by
  induction pre with
  | nil => intro off rest; simp [utf8Len]
  | cons c pre' ih =>
    intro off rest
    have hsz := Char.utf8Size_pos c
    have h1 : utf8Len (c :: pre') + off
        = c.utf8Size + (utf8Len pre' + off) := by
      simp [utf8Len]; omega
    rw [h1, List.cons_append,
      byteDrop_cons_pos c (pre' ++ rest) _ (by omega),
      show c.utf8Size + (utf8Len pre' + off) - c.utf8Size
        = utf8Len pre' + off by omega]
    exact ih off rest

theorem byteTake_utf8Len_take (l : List Char) :
    ∀ k, byteTake l (utf8Len (l.take k)) = l.take k := by
  induction l with
  | nil => intro k; simp [utf8Len, byteTake]
  | cons c cs ih =>
    intro k
    cases k with
    | zero => simp [utf8Len, byteTake]
    | succ k =>
      have hsz := Char.utf8Size_pos c
      have h1 : utf8Len ((c :: cs).take (k + 1))
          = c.utf8Size + utf8Len (cs.take k) := by
        simp [utf8Len]
      rw [h1, byteTake_cons_pos c cs _ (by omega),
        show c.utf8Size + utf8Len (cs.take k) - c.utf8Size
          = utf8Len (cs.take k) by omega, ih k, List.take_succ_cons]

theorem chunkAt_shift (src : List Char) (k n : ℕ) (p : ℕ × Char) :
    chunkAt src n (p.1 + utf8Len (src.take k), p.2)
      = chunkAt (src.drop k) n p := by
  have hb : byteDrop src (p.1 + utf8Len (src.take k))
      = byteDrop (src.drop k) p.1 := by
    have h := byteDrop_append (src.take k) p.1 (src.drop k)
    rw [List.take_append_drop] at h
    rw [Nat.add_comm]
    exact h
  simp only [chunkAt, hb]

theorem chunksList_cons (n : ℕ) (l : List Char) (hn : 0 < n)
    (hlen : n ≤ l.length) :
    chunksList n l = l.take n :: chunksList n (l.drop n) := by
  have hdiv : l.length / n = (l.length - n) / n + 1 := by
    conv_lhs => rw [show l.length = (l.length - n) + n by omega]
    exact Nat.add_div_right _ hn
  rw [chunksList, hdiv, List.range_succ_eq_map, List.map_cons, List.map_map]
  congr 1
  · simp
  · rw [chunksList, List.length_drop]
    apply List.map_congr_left
    intro i _
    simp only [Function.comp_apply]
    have hmul : Nat.succ i * n = n + i * n := by
      rw [Nat.succ_mul]; omega
    rw [hmul, List.drop_drop]

theorem chunkAt_of_drop_eq (src : List Char) (n : ℕ) (p : ℕ × Char)
    (off : ℕ) (c : Char) (tail : List (ℕ × Char))
    (h : (charIndices (byteDrop src p.1)).drop (n - 1) = (off, c) :: tail) :
    chunkAt src n p = some (byteTake (byteDrop src p.1) (off + c.utf8Size)) := by
  rw [chunkAt, h]

theorem chunkAt_of_drop_nil (src : List Char) (n : ℕ) (p : ℕ × Char)
    (h : (charIndices (byteDrop src p.1)).drop (n - 1) = []) :
    chunkAt src n p = none := by
  rw [chunkAt, h]

/-- The complete chunking correctness, fuel-indexed for induction on the
string length. -/
theorem string_chunks_correct_aux (m : ℕ) :
    ∀ (L : ℕ) (src : List Char), src.length ≤ L →
      string_chunks src (m + 1) = chunksList (m + 1) src := by
  intro L
  induction L with
  | zero =>
    intro src h
    obtain rfl : src = [] := List.eq_nil_of_length_eq_zero (by omega)
    simp [string_chunks, chunksList, charIndices, charIndicesFrom, stepBy,
      stepByAux]
  | succ L ih =>
    intro src hlen
    cases src with
    | nil =>
      simp [string_chunks, chunksList, charIndices, charIndicesFrom, stepBy,
        stepByAux]
    | cons c cs =>
      have hchar : charIndices (c :: cs)
          = (0, c) :: charIndicesFrom c.utf8Size cs := by
        simp [charIndices, charIndicesFrom]
      rw [string_chunks, hchar, stepBy_cons, show m + 1 - 1 = m by omega]
      by_cases hsmall : (c :: cs).length < m + 1
      · -- fewer than m+1 characters: no chunk at all
        have hnone : chunkAt (c :: cs) (m + 1) (0, c) = none := by
          apply chunkAt_of_drop_nil
          apply List.drop_eq_nil_of_le
          show (charIndices (byteDrop (c :: cs) (0, c).1)).length ≤ m + 1 - 1
          rw [show byteDrop (c :: cs) (0, c).1 = c :: cs from rfl,
            charIndices, charIndicesFrom_length]
          simp at hsmall ⊢
          omega
        have htail : (charIndicesFrom c.utf8Size cs).drop m = [] := by
          apply List.drop_eq_nil_of_le
          rw [charIndicesFrom_length]
          simp at hsmall ⊢
          omega
        have hdiv : (c :: cs).length / (m + 1) = 0 := Nat.div_eq_of_lt hsmall
        rw [htail, List.filterMap_cons_none hnone, chunksList, hdiv]
        rfl
      · push_neg at hsmall
        have hm : m < (c :: cs).length := by omega
        have hlast : utf8Len ((c :: cs).take m)
            + ((c :: cs).get ⟨m, hm⟩).utf8Size
            = utf8Len ((c :: cs).take (m + 1)) := by
          rw [List.take_succ, utf8Len_append]
          congr 1
          have hgm : (c :: cs)[m]? = some ((c :: cs).get ⟨m, hm⟩) := by
            simp [List.getElem?_eq_getElem hm]
          rw [hgm]
          simp [utf8Len]
        -- the head chunk is the first m+1 characters
        have hsome : chunkAt (c :: cs) (m + 1) (0, c)
            = some ((c :: cs).take (m + 1)) := by
          have hdr : (charIndices (byteDrop (c :: cs) ((0 : ℕ), c).1)).drop
                (m + 1 - 1)
              = (utf8Len ((c :: cs).take m), (c :: cs).get ⟨m, hm⟩)
                :: charIndicesFrom
                    (utf8Len ((c :: cs).take m)
                      + ((c :: cs).get ⟨m, hm⟩).utf8Size)
                    ((c :: cs).drop (m + 1)) := by
            show (charIndicesFrom 0 (c :: cs)).drop m = _
            rw [charIndicesFrom_drop, List.drop_eq_getElem_cons hm]
            simp [charIndicesFrom, List.get_eq_getElem]
          rw [chunkAt_of_drop_eq _ _ _ _ _ _ hdr,
            show byteDrop (c :: cs) ((0 : ℕ), c).1 = c :: cs from rfl,
            hlast, byteTake_utf8Len_take]
        rw [List.filterMap_cons_some hsome]
        -- the tail: shift the offsets back to the dropped string
        have htail : (charIndicesFrom c.utf8Size cs).drop m
            = charIndicesFrom (utf8Len ((c :: cs).take (m + 1)))
                ((c :: cs).drop (m + 1)) := by
          rw [charIndicesFrom_drop]
          congr 1
        rw [htail, charIndicesFrom_eq_map, stepBy_map, List.filterMap_map]
        have hfun : (chunkAt (c :: cs) (m + 1))
            ∘ (fun p : ℕ × Char => (p.1 + utf8Len ((c :: cs).take (m + 1)), p.2))
            = chunkAt ((c :: cs).drop (m + 1)) (m + 1) := by
          funext p
          exact chunkAt_shift (c :: cs) (m + 1) (m + 1) p
        rw [hfun]
        have hrec : string_chunks ((c :: cs).drop (m + 1)) (m + 1)
            = chunksList (m + 1) ((c :: cs).drop (m + 1)) := by
          apply ih
          simp at hlen ⊢
          omega
        rw [show List.filterMap (chunkAt ((c :: cs).drop (m + 1)) (m + 1))
              (stepBy (m + 1) (charIndices ((c :: cs).drop (m + 1))))
            = string_chunks ((c :: cs).drop (m + 1)) (m + 1) from rfl, hrec]
        rw [chunksList_cons (m + 1) (c :: cs) (by omega) hsmall]

/-- `string_chunks` equals the scalar-value chunking, for any width ≥ 1. -/
theorem string_chunks_correct (src : List Char) (n : ℕ) (hn : 1 ≤ n) :
    string_chunks src n = chunksList n src := by
  obtain ⟨m, rfl⟩ : ∃ m, n = m + 1 := ⟨n - 1, by omega⟩
  exact string_chunks_correct_aux m src.length src le_rfl

/-- C3: the chunking used by `push`/`push_unchecked` groups every
`symbol_size` consecutive Unicode scalar values into one chunk, delimiting
chunks at character-boundary byte offsets — `string_chunks`, which walks
`char_indices` byte offsets, coincides with the purely scalar-value chunking
`chunksList` on every input, so it is correct for multi-byte UTF-8. -/
theorem C3_chunking (src : List Char) (n : ℕ) (hn : 1 ≤ n) :
    string_chunks src n = chunksList n src :=
  string_chunks_correct src n hn

/-- Witness for C3: chunking `"ɑɑBɓɔɔAA"` (with two-byte `ɑ`, `ɓ`, `ɔ`) at
width 2 yields `["ɑɑ", "Bɓ", "ɔɔ", "AA"]`. -/
theorem C3_witness :
    (1 : ℕ) ≤ 2 ∧
    string_chunks "ɑɑBɓɔɔAA".data 2
      = ["ɑɑ".data, "Bɓ".data, "ɔɔ".data, "AA".data] :=
  ⟨by decide, (C3_chunking "ɑɑBɓɔɔAA".data 2 (by decide)).trans (by decide)⟩

/-- The two-character test alphabet `["AA", "TT", "GG", "CC"]` of the
sequence tests. -/
def alphaDNA2 : Alphabet :=
  { symbols := ["AA".data, "TT".data, "GG".data, "CC".data],
    symbol_size := 2, max_alphabet_size := 256 }

/-- `Sequence::new(&alphaDNA2)`: empty buffer over the index mapping
`AA ↦ 0, TT ↦ 1, GG ↦ 2, CC ↦ 3`. -/
def seqDNA2 : Sequence :=
  { encoder :=
      { alphabet := alphaDNA2,
        mapping := [("AA".data, 0), ("TT".data, 1), ("GG".data, 2), ("CC".data, 3)] },
    circular := false,
    string := [] }

/-- Counterexample to C1 as stated: `"AZZ"` has 3 scalar values (not a
multiple of `symbol_size = 2`), yet `push_unchecked` does not succeed — its
complete leading chunk `"AZ"` is not a symbol, so it returns `InvalidSymbol`
instead of storing the leading chunks; likewise `"ZZ"` has a multiple of
`symbol_size` scalar values, yet `push` does not append its chunk's encoding
but fails with `InvalidSymbol`. -/
theorem C1_cex :
    newSeq alphaDNA2 = some seqDNA2 ∧
    ("AZZ".data.length % alphaDNA2.symbol_size ≠ 0 ∧
      (seqDNA2.push_unchecked "AZZ".data).1
        = .error (.InvalidSymbol "AZ".data)) ∧
    ("ZZ".data.length % alphaDNA2.symbol_size = 0 ∧
      (seqDNA2.push "ZZ".data).1 = .error (.InvalidSymbol "ZZ".data)) :=
  ⟨by decide, ⟨by decide, rfl⟩, ⟨by decide, rfl⟩⟩

/-- C1 (amended): for text whose scalar-value count is not a multiple of
`symbol_size`, `push` returns `InvalidLength` and leaves the buffer
unchanged, while `push_unchecked` — provided every complete leading chunk
encodes successfully — succeeds and appends exactly the encodings of those
chunks; for text whose count is a multiple of `symbol_size` and whose chunks
all encode, `push` appends every chunk's encoding in order. -/
theorem C1_push (sq : Sequence) (text : List Char)
    (hs : 1 ≤ sq.encoder.alphabet.symbol_size) :
    (text.length % sq.encoder.alphabet.symbol_size ≠ 0 →
      sq.push text = (.error .InvalidLength, sq) ∧
      ∀ codes, encode_all sq.encoder
          (chunksList sq.encoder.alphabet.symbol_size text) = .ok codes →
        sq.push_unchecked text
          = (.ok (), { sq with string := sq.string ++ codes })) ∧
    (text.length % sq.encoder.alphabet.symbol_size = 0 →
      ∀ codes, encode_all sq.encoder
          (chunksList sq.encoder.alphabet.symbol_size text) = .ok codes →
        sq.push text = (.ok (), { sq with string := sq.string ++ codes })) := by
  constructor
  · intro hne
    constructor
    · simp [Sequence.push, hne]
    · intro codes hcodes
      rw [← string_chunks_correct text _ hs] at hcodes
      simp [Sequence.push_unchecked, hcodes]
  · intro heq codes hcodes
    rw [← string_chunks_correct text _ hs] at hcodes
    simp [Sequence.push, heq, hcodes]

/-- Witness for C1 at the spec's own example alphabet
`["AA", "TT", "GG", "CC"]`: `push("AATTCCG")` fails with `InvalidLength`
leaving the buffer empty, `push_unchecked("AATTCCG")` stores `[0, 1, 3]`, and
`push("AATTCCGGCCAA")` stores `[0, 1, 3, 2, 3, 0]`. -/
theorem C1_witness :
    ((1 : ℕ) ≤ seqDNA2.encoder.alphabet.symbol_size ∧
      "AATTCCG".data.length % seqDNA2.encoder.alphabet.symbol_size ≠ 0 ∧
      "AATTCCGGCCAA".data.length % seqDNA2.encoder.alphabet.symbol_size = 0) ∧
    seqDNA2.push "AATTCCG".data = (.error .InvalidLength, seqDNA2) ∧
    seqDNA2.push_unchecked "AATTCCG".data
      = (.ok (), { seqDNA2 with string := seqDNA2.string ++ [0, 1, 3] }) ∧
    seqDNA2.push "AATTCCGGCCAA".data
      = (.ok (), { seqDNA2 with string := seqDNA2.string ++ [0, 1, 3, 2, 3, 0] }) := by
  have h := C1_push seqDNA2 "AATTCCG".data (by decide)
  have h2 := C1_push seqDNA2 "AATTCCGGCCAA".data (by decide)
  exact ⟨⟨by decide, by decide, by decide⟩,
    (h.1 (by decide)).1,
    (h.1 (by decide)).2 [0, 1, 3] rfl,
    h2.2 (by decide) [0, 1, 3, 2, 3, 0] rfl⟩

/-- C10: on every error — `InvalidLength` or an encoding error on some
chunk — `push` and `push_unchecked` leave the byte buffer (indeed the whole
sequence) unchanged: `encode_all` must succeed on all chunks before a single
byte is appended. -/
theorem C10_error_leaves_buffer (sq : Sequence) (text : List Char)
    (e : ErrorKind) :
    ((sq.push text).1 = .error e → (sq.push text).2 = sq) ∧
    ((sq.push_unchecked text).1 = .error e → (sq.push_unchecked text).2 = sq) := by
  constructor
  · intro h
    by_cases hlen : text.length % sq.encoder.alphabet.symbol_size ≠ 0
    · simp [Sequence.push, hlen]
    · simp only [Sequence.push, if_neg hlen] at h ⊢
      cases hm : encode_all sq.encoder
          (string_chunks text sq.encoder.alphabet.symbol_size) with
      | error err => simp [hm]
      | ok v => rw [hm] at h; simp at h
  · intro h
    simp only [Sequence.push_unchecked] at h ⊢
    cases hm : encode_all sq.encoder
        (string_chunks text sq.encoder.alphabet.symbol_size) with
    | error err => simp [hm]
    | ok v => rw [hm] at h; simp at h

/-- Witness for C10: both failure modes at the test alphabet — `push` on
`"AZZ"` fails with `InvalidLength`, `push_unchecked` on `"AZZ"` fails with
`InvalidSymbol` on chunk `"AZ"` — and in both cases the sequence is
untouched. -/
theorem C10_witness :
    ((seqDNA2.push "AZZ".data).1 = .error .InvalidLength ∧
      (seqDNA2.push "AZZ".data).2 = seqDNA2) ∧
    ((seqDNA2.push_unchecked "AZZ".data).1
        = .error (.InvalidSymbol "AZ".data) ∧
      (seqDNA2.push_unchecked "AZZ".data).2 = seqDNA2) := by
  have h1 := C10_error_leaves_buffer seqDNA2 "AZZ".data .InvalidLength
  have h2 := C10_error_leaves_buffer seqDNA2 "AZZ".data (.InvalidSymbol "AZ".data)
  exact ⟨⟨rfl, h1.1 rfl⟩, ⟨rfl, h2.2 rfl⟩⟩

end biors
